import Mathlib

/-!
Verification development for the DeepEP low-latency internode kernels
(`csrc/kernels/internode_ll.cu`): a shallow embedding of the dispatch /
combine protocol (slot counters, the signed count handshake, Pure-EP
ownership masking, the combine receive-reduce loop, the `ExpertSyncInfo`
layout, and the dispatch receive-phase guard), with theorems checking the
natural-language specification against the code.

Machine integers are modelled as `Int`/`Nat`; the counters and the count
handshake never approach 32-bit bounds in any claim, so no wrap-around
modelling is needed.  FP32 accumulation in combine is modelled over `ℚ`
(exact arithmetic); the bfloat16 conversion is modelled by an executable
round-to-nearest function on `ℚ` that is exact at zero.
-/

namespace DeepEP

/-! ## Dispatch model

`dispatch` (internode_ll.cu) is launched with one block per global expert.
Block `e` on rank `r` scans that rank's whole token batch; for each token
`t` and each top-k entry `k` it sends the message for `(t, e)` iff
  * `topk_idx[t][k] ≥ 0` (not padding),
  * `topk_idx[t][k] = e` (this block's responsible expert; blocks exist
    for `e < num_experts` only),
  * in Pure EP mode, `rank = t % num_ranks` (ownership masking).
Each send atomically increments `atomic_counter_per_expert[e*R + rank]`
(initially zero) to reserve a slot. -/

structure DispatchParams where
  numRanks : Nat
  numExperts : Nat
  /-- per-rank token batch size (`num_tokens` argument of rank `r`'s launch) -/
  numTokens : Nat → Nat
  numTopk : Nat
  /-- `num_max_dispatch_tokens_per_rank` -/
  sMax : Nat
  /-- `topk_idx` array of rank `r`: token `t`, entry `k` (an `int64` in the
  source; `-1` is padding) -/
  topkIdx : Nat → Nat → Nat → Int

namespace DispatchParams

/-- `num_local_experts = num_experts / num_ranks` (C integer division). -/
def numLocalExperts (p : DispatchParams) : Nat :=
  p.numExperts / p.numRanks

/-- `is_pure_ep_mode = (num_ranks == num_experts / num_local_experts)`. -/
def isPureEP (p : DispatchParams) : Bool :=
  p.numRanks == p.numExperts / p.numLocalExperts

/-- Does rank `r` send token `t`'s top-k entry `k` to expert `e`?  Mirrors
the skip chain of the send loop: padding skip (`dst_expert_idx < 0`),
responsible-expert filter (`dst_expert_idx != responsible_expert_idx`,
with blocks existing for experts `< num_experts`), and the Pure-EP
ownership mask (`rank != token_idx % num_ranks`). -/
def sendsEntryTo (p : DispatchParams) (r t k e : Nat) : Bool :=
  p.topkIdx r t k == (e : Int) && e < p.numExperts &&
    (!p.isPureEP || r == t % p.numRanks)

/-- Does rank `r` send token `t`'s top-k entry `k` at all (to whatever
expert it names)? -/
def sendsEntry (p : DispatchParams) (r t k : Nat) : Bool :=
  0 ≤ p.topkIdx r t k && p.topkIdx r t k < (p.numExperts : Int) &&
    (!p.isPureEP || r == t % p.numRanks)

/-- The `(token, entry)` pairs for which rank `r` performs an atomic
increment of its slot counter `atomic_counter_per_expert[e*R + r]`. -/
def sendEvents (p : DispatchParams) (r e : Nat) : List (Nat × Nat) :=
  (List.range (p.numTokens r)).flatMap (fun t =>
    ((List.range p.numTopk).filter (fun k => p.sendsEntryTo r t k e)).map
      (fun k => (t, k)))

/-- Number of sender-side atomic increments of `counter[e*R + r]` on rank
`r` during one dispatch. -/
def numIncrements (p : DispatchParams) (r e : Nat) : Nat :=
  (p.sendEvents r e).length

/-- The slot counter as the code computes it: an `int` cell starting at
`0`, bumped by `atomicAdd(…, 1)` once per send event.  Its final value is
what the count-send phase reads back as `actual_sent_count`. -/
def counterFinal (p : DispatchParams) (r e : Nat) : Int :=
  (p.sendEvents r e).foldl (fun c _ => c + 1) 0

/-- Contribution of a single token `t` to `counter[e*R + r]` on rank `r`:
the number of its top-k entries that rank `r` sends to expert `e`. -/
def tokenContrib (p : DispatchParams) (r t e : Nat) : Nat :=
  ((List.range p.numTopk).filter (fun k => p.sendsEntryTo r t k e)).length

/-- Pure-EP defensive clamp before the count send
(`if (actual_sent_count < 0) actual_sent_count = 0;`). -/
def clampCount (p : DispatchParams) (c : Int) : Int :=
  if p.isPureEP && c < 0 then 0 else c

/-- `actual_sent_count` as read (and possibly clamped) in the count-send
block of `dispatch`. -/
def actualSentCount (p : DispatchParams) (r e : Nat) : Int :=
  p.clampCount (p.counterFinal r e)

end DispatchParams

/-- Signed count encoding: the value handed to
`nvshmemi_ibgda_amo_nonfetch_add` / `atomicAdd_system` is
`-actual_sent_count - 1`. -/
def encodeCount (n : Int) : Int := -n - 1

/-- Receiver-side decoding (`num_recv_tokens = -num_recv_tokens - 1`). -/
def decodeCount (v : Int) : Int := -v - 1

/-- The count cell of `rdma_recv_count` starts each iteration at zero (the
cleaner contract; dispatch relies on it because the count is delivered by
atomic-add). -/
def rdmaCountInit : Int := 0

/-- The wire value rank `r` posts for expert `e`. -/
def wireCount (p : DispatchParams) (r e : Nat) : Int :=
  encodeCount (p.actualSentCount r e)

/-- The value the receiver's spin loop eventually reads: the initial zero
plus the atomically-added encoded count. -/
def arrivalCount (p : DispatchParams) (r e : Nat) : Int :=
  rdmaCountInit + wireCount p r e

/-- General fact about the counter dynamics: folding `+1` over the event
list starting from `c` lands at `c` plus the number of events. -/
theorem foldl_add_one (l : List (Nat × Nat)) (c : Int) :
    l.foldl (fun a _ => a + 1) c = c + l.length := by
  induction l generalizing c with
  | nil => simp
  | cons x xs ih =>
      simp only [List.foldl_cons, List.length_cons, ih]
      push_cast
      ring

theorem counterFinal_eq_numIncrements (p : DispatchParams) (r e : Nat) :
    p.counterFinal r e = (p.numIncrements r e : Int) := by
  unfold DispatchParams.counterFinal DispatchParams.numIncrements
  rw [foldl_add_one]
  simp

theorem counterFinal_nonneg (p : DispatchParams) (r e : Nat) :
    0 ≤ p.counterFinal r e := by
  rw [counterFinal_eq_numIncrements]
  exact Int.ofNat_nonneg _

theorem actualSentCount_eq (p : DispatchParams) (r e : Nat) :
    p.actualSentCount r e = p.counterFinal r e := by
  unfold DispatchParams.actualSentCount DispatchParams.clampCount
  have h := counterFinal_nonneg p r e
  split
  next hcond =>
    rw [Bool.and_eq_true, decide_eq_true_eq] at hcond
    omega
  next => rfl

theorem actualSentCount_nonneg (p : DispatchParams) (r e : Nat) :
    0 ≤ p.actualSentCount r e := by
  rw [actualSentCount_eq]; exact counterFinal_nonneg p r e

theorem wireCount_eq (p : DispatchParams) (r e : Nat) :
    wireCount p r e = -(p.counterFinal r e) - 1 := by
  unfold wireCount encodeCount
  rw [actualSentCount_eq]

theorem arrivalCount_eq (p : DispatchParams) (r e : Nat) :
    arrivalCount p r e = -(p.counterFinal r e) - 1 := by
  unfold arrivalCount rdmaCountInit
  rw [wireCount_eq]; ring

theorem arrivalCount_ne_zero (p : DispatchParams) (r e : Nat) :
    arrivalCount p r e ≠ 0 := by
  have hnn := counterFinal_nonneg p r e
  rw [arrivalCount_eq]; omega

theorem decode_arrivalCount (p : DispatchParams) (r e : Nat) :
    decodeCount (arrivalCount p r e) = p.counterFinal r e := by
  unfold decodeCount
  rw [arrivalCount_eq]; ring

/-- C1: the transmitted count is the signed encoding `-n-1` of the
sender's final slot-counter value `n`; the delivered cell value (initial
zero plus the atomic add) is non-zero, and decoding it with `-v-1`
recovers `n`; a sent count of zero arrives as `-1`, distinguishable from
the not-yet-arrived value `0`. -/
theorem count_handshake_roundtrip (p : DispatchParams) (r e : Nat) :
    wireCount p r e = -(p.counterFinal r e) - 1 ∧
    arrivalCount p r e ≠ 0 ∧
    decodeCount (arrivalCount p r e) = p.counterFinal r e ∧
    encodeCount 0 = -1 ∧ (-1 : Int) ≠ rdmaCountInit :=
  ⟨wireCount_eq p r e, arrivalCount_ne_zero p r e, decode_arrivalCount p r e,
   by unfold encodeCount; ring, by unfold rdmaCountInit; omega⟩

/-- Helper: filtering `List.range n` by equality with `x < n` leaves
exactly `[x]`. -/
theorem filter_range_beq (n x : Nat) (hx : x < n) :
    (List.range n).filter (fun r => r == x) = [x] := by
  induction n with
  | zero => omega
  | succ m ih =>
      rw [List.range_succ, List.filter_append]
      by_cases hxm : x = m
      · subst hxm
        have h1 : (List.range x).filter (fun r => r == x) = [] := by
          rw [List.filter_eq_nil_iff]
          intro a ha
          simp only [List.mem_range] at ha
          simp only [beq_iff_eq]
          omega
        simp [h1]
      · have hx' : x < m := by omega
        rw [ih hx']
        have h2 : [m].filter (fun r => r == x) = [] := by
          simp [Ne.symm hxm]
        simp [h2]

/-- C2: in Pure EP mode, for a token `t` and a non-padding top-k entry `k`
naming a valid expert `e`, exactly one rank — the owner `t % num_ranks` —
passes the send filter (and so reserves a slot and sends the message for
`(t, e)`); every other rank skips the send, so its counter for `(e, r)`
receives no increment from token `t` at all. -/
theorem pure_ep_unique_sender (p : DispatchParams)
    (hpure : p.isPureEP = true)
    (hR : 0 < p.numRanks)
    (hshared : ∀ r₁ r₂ t k, p.topkIdx r₁ t k = p.topkIdx r₂ t k)
    (t k e : Nat) (he : p.topkIdx 0 t k = (e : Int)) (heE : e < p.numExperts) :
    ((List.range p.numRanks).filter (fun r => p.sendsEntryTo r t k e))
        = [t % p.numRanks] ∧
    (∀ r, r ≠ t % p.numRanks → p.sendsEntryTo r t k e = false) ∧
    (∀ r, r ≠ t % p.numRanks → p.tokenContrib r t e = 0) := by
  have hsend : ∀ r, p.sendsEntryTo r t k e = (r == t % p.numRanks) := by
    intro r
    unfold DispatchParams.sendsEntryTo
    rw [hshared r 0 t k, he, hpure]
    by_cases hr : r = t % p.numRanks
    · simp [hr, heE]
    · simp [hr]
  have hnone : ∀ r, r ≠ t % p.numRanks → p.sendsEntryTo r t k e = false := by
    intro r hr
    rw [hsend r]
    simp [hr]
  refine ⟨?_, hnone, ?_⟩
  · have hcongr : (List.range p.numRanks).filter (fun r => p.sendsEntryTo r t k e)
        = (List.range p.numRanks).filter (fun r => r == t % p.numRanks) :=
      List.filter_congr (fun r _ => hsend r)
    rw [hcongr]
    exact filter_range_beq _ _ (Nat.mod_lt t hR)
  · intro r hr
    unfold DispatchParams.tokenContrib
    rw [List.length_eq_zero, List.filter_eq_nil_iff]
    intro a _
    unfold DispatchParams.sendsEntryTo
    rw [hpure]
    simp [hr]

/-! ## Dispatch receive phase: the count arrival and capacity checks

Receive-side block `b = ℓ·R + s` on owner rank `w` polls
`rdma_recv_count[ℓ·R + s]` until non-zero, decodes, and atomically adds
the decoded count into `packed_recv_count[ℓ·R + s]` (which the host
zero-initialises; exactly one block touches each pair, so the returned
`recv_token_begin_idx` is the initial zero and the final cell value is
the decoded count). -/

/-- Slot indices handed out by the sender's fetch-add for pair `(e, r)`:
`atomicAdd` starting from zero yields `0, 1, …, n-1`. -/
def slotsHanded (p : DispatchParams) (r e : Nat) : List Nat :=
  List.range (p.numIncrements r e)

/-- Sender-side fatal assertion: fires iff some reserved `slot_idx`
satisfies `slot_idx >= num_max_dispatch_tokens_per_rank`. -/
def senderOverflowAssert (p : DispatchParams) (r e : Nat) : Bool :=
  (slotsHanded p r e).any (fun s => p.sMax ≤ s)

/-- `packed_recv_count` is zero-initialised by the host before the
kernel runs (comment at the count-send site of `dispatch`). -/
def packedRecvCountInit : Int := 0

/-- The global expert index of the pair `(ℓ, s)` on owner rank `w`. -/
def ownerExpert (p : DispatchParams) (w ℓ : Nat) : Nat :=
  w * p.numLocalExperts + ℓ

/-- The decoded token count produced by the receive-phase wait loop for
pair `(ℓ, s)` on rank `w`: the loop exits on a non-zero cell value and
decodes it with `-v - 1` (a value of `0` would keep it spinning). -/
def recvNumTokens (p : DispatchParams) (w ℓ s : Nat) : Int :=
  let v := arrivalCount p s (ownerExpert p w ℓ)
  if v ≠ 0 then decodeCount v else 0

/-- `recv_token_begin_idx`: the previous value returned by the single
`atomicAdd(packed_recv_count + ℓ·R + s, n)` of this pair's block. -/
def recvTokenBeginIdx : Int := packedRecvCountInit

/-- Receiver-side fatal assertion: fires iff
`recv_token_begin_idx + num_recv_tokens > num_max_dispatch_tokens_per_rank`. -/
def receiverOverflowAssert (p : DispatchParams) (w ℓ s : Nat) : Bool :=
  (p.sMax : Int) < recvTokenBeginIdx + recvNumTokens p w ℓ s

/-- Final value of `packed_recv_count[ℓ·R + s]` on rank `w` after the
full dispatch: initial zero plus the one decoded count. -/
def packedRecvCountFinal (p : DispatchParams) (w ℓ s : Nat) : Int :=
  packedRecvCountInit + recvNumTokens p w ℓ s

theorem recvNumTokens_eq (p : DispatchParams) (w ℓ s : Nat) :
    recvNumTokens p w ℓ s = (p.numIncrements s (ownerExpert p w ℓ) : Int) := by
  unfold recvNumTokens
  rw [if_pos (arrivalCount_ne_zero p s (ownerExpert p w ℓ)),
    decode_arrivalCount, counterFinal_eq_numIncrements]

theorem ownerExpert_lt (p : DispatchParams) (w ℓ : Nat)
    (hw : w < p.numRanks) (hℓ : ℓ < p.numLocalExperts) :
    ownerExpert p w ℓ < p.numExperts := by
  unfold ownerExpert
  have h1 : w * p.numLocalExperts + ℓ < (w + 1) * p.numLocalExperts := by
    rw [Nat.succ_mul]
    omega
  have h2 : (w + 1) * p.numLocalExperts ≤ p.numRanks * p.numLocalExperts :=
    Nat.mul_le_mul_right _ hw
  have h3 : p.numRanks * p.numLocalExperts ≤ p.numExperts := by
    unfold DispatchParams.numLocalExperts
    rw [Nat.mul_comm]
    exact Nat.div_mul_le_self p.numExperts p.numRanks
  omega

/-- C3: after a completed dispatch, `packed_recv_count[ℓ·R + s]` on the
rank owning expert `e = w·L + ℓ` equals the number of sender-side atomic
increments of `counter[e·R + s]` performed on rank `s`, and (given the
capacity precondition under which the dispatch completes without a fatal
assertion) no such value exceeds `num_max_dispatch_tokens_per_rank`. -/
theorem packed_recv_count_eq_increments (p : DispatchParams) (w ℓ s : Nat)
    (hw : w < p.numRanks) (hℓ : ℓ < p.numLocalExperts)
    (hfit : ∀ e < p.numExperts, ∀ r < p.numRanks,
      p.numIncrements r e ≤ p.sMax) (hs : s < p.numRanks) :
    packedRecvCountFinal p w ℓ s
        = (p.numIncrements s (ownerExpert p w ℓ) : Int) ∧
    packedRecvCountFinal p w ℓ s ≤ (p.sMax : Int) := by
  have heq : packedRecvCountFinal p w ℓ s
      = (p.numIncrements s (ownerExpert p w ℓ) : Int) := by
    unfold packedRecvCountFinal packedRecvCountInit
    rw [recvNumTokens_eq]
    ring
  refine ⟨heq, ?_⟩
  rw [heq]
  have hbound := hfit (ownerExpert p w ℓ) (ownerExpert_lt p w ℓ hw hℓ) s hs
  exact_mod_cast hbound

/-- C4: the dispatch capacity assertions fire exactly on overflow.  The
sender asserts iff some reserved slot index reaches
`num_max_dispatch_tokens_per_rank` (iff more than `S_max` increments
happened for the pair); the receiver asserts iff
`recv_token_begin_idx + n` exceeds `S_max`; and when the per-pair traffic
fits in `S_max`, neither assertion fires. -/
theorem overflow_asserts_iff (p : DispatchParams) (w ℓ s : Nat) :
    (senderOverflowAssert p s (ownerExpert p w ℓ) = true
        ↔ p.sMax < p.numIncrements s (ownerExpert p w ℓ)) ∧
    (receiverOverflowAssert p w ℓ s = true
        ↔ (p.sMax : Int) < p.numIncrements s (ownerExpert p w ℓ)) ∧
    (p.numIncrements s (ownerExpert p w ℓ) ≤ p.sMax →
      senderOverflowAssert p s (ownerExpert p w ℓ) = false ∧
      receiverOverflowAssert p w ℓ s = false) := by
  have hsender : senderOverflowAssert p s (ownerExpert p w ℓ) = true
      ↔ p.sMax < p.numIncrements s (ownerExpert p w ℓ) := by
    unfold senderOverflowAssert slotsHanded
    rw [List.any_eq_true]
    constructor
    · rintro ⟨a, ha, hle⟩
      simp only [List.mem_range] at ha
      simp only [decide_eq_true_eq] at hle
      omega
    · intro hlt
      exact ⟨p.sMax, by simpa using hlt, by simp⟩
  have hrecv : receiverOverflowAssert p w ℓ s = true
      ↔ (p.sMax : Int) < p.numIncrements s (ownerExpert p w ℓ) := by
    unfold receiverOverflowAssert recvTokenBeginIdx packedRecvCountInit
    rw [recvNumTokens_eq]
    simp
  refine ⟨hsender, hrecv, fun hfit => ⟨?_, ?_⟩⟩
  · rw [Bool.eq_false_iff, Ne, hsender]
    omega
  · rw [Bool.eq_false_iff, Ne, hrecv]
    omega

/-- Concrete system for witnesses: scenario S4 of the spec — `R = 4`,
`E = 4`, `L = 1` (Pure EP), `K = 1`, six tokens of which only token 5
routes (to expert 2); `S_max = 4`. -/
def exampleDispatch : DispatchParams := {
  numRanks := 4, numExperts := 4,
  numTokens := fun _ => 6, numTopk := 1, sMax := 4,
  topkIdx := fun _ t _ => if t = 5 then 2 else -1 }

theorem pure_ep_unique_sender_witness :
    exampleDispatch.isPureEP = true ∧
    ((List.range exampleDispatch.numRanks).filter
        (fun r => exampleDispatch.sendsEntryTo r 5 0 2))
      = [5 % exampleDispatch.numRanks] ∧
    exampleDispatch.tokenContrib 0 5 2 = 0 :=
  have h := pure_ep_unique_sender exampleDispatch (by decide) (by decide)
      (fun _ _ _ _ => rfl) 5 0 2 (by decide) (by decide)
  ⟨by decide, h.1, h.2.2 0 (by decide)⟩

theorem packed_recv_count_eq_increments_witness :
    packedRecvCountFinal exampleDispatch 2 0 1
        = (exampleDispatch.numIncrements 1 (ownerExpert exampleDispatch 2 0) : Int) ∧
    packedRecvCountFinal exampleDispatch 2 0 1 ≤ (exampleDispatch.sMax : Int) :=
  packed_recv_count_eq_increments exampleDispatch 2 0 1
    (by decide) (by decide) (by decide) (by decide)

theorem overflow_asserts_iff_witness :
    senderOverflowAssert exampleDispatch 1 (ownerExpert exampleDispatch 2 0) = false ∧
    receiverOverflowAssert exampleDispatch 2 0 1 = false :=
  (overflow_asserts_iff exampleDispatch 2 0 1).2.2 (by decide)

/-- C9: every count value posted to `rdma_recv_count` is at most `-1`
(strictly negative): the counter starts at zero and is only incremented,
the Pure-EP clamp never produces a negative `actual_sent_count`, and the
receiver's decoded token count is therefore never negative. -/
theorem wireCount_le_neg_one (p : DispatchParams) (r e : Nat) :
    wireCount p r e ≤ -1 ∧ 0 ≤ decodeCount (wireCount p r e) := by
  have hnn := actualSentCount_nonneg p r e
  unfold wireCount encodeCount decodeCount
  omega

/-! ## Combine model: receive-and-reduce

`combine` (internode_ll.cu) after the grid-wide sync accumulates, for each
output token `t` and each element of the hidden vector, the weighted
payloads of the token's top-k experts — but only from experts local to
this rank.  The slot for `(expert, from_rank)` is located by scanning
`layout_range` and matching `src_info == t` (first match, then `break`).
FP32 accumulation is modelled exactly over `ℚ`; the per-`int4` bounds
check on the packed buffer is modelled at element granularity (the two
are equivalent because all elements of an `int4` share its address
check). -/

structure CombineParams where
  numRanks : Nat
  numExperts : Nat
  rank : Nat
  /-- `num_max_dispatch_tokens_per_rank` -/
  sMax : Nat
  /-- hidden-vector elements per token -/
  hidden : Nat
  /-- `safe_num_topk` (already validated) -/
  numTopk : Nat
  numCombinedTokens : Nat
  topkIdx : Nat → Nat → Int
  topkWeights : Nat → Nat → ℚ
  /-- `unpack2` of `layout_range[ℓ·R + from_rank]`: token count -/
  layoutNum : Nat → Nat → Nat
  /-- `unpack2` of `layout_range[ℓ·R + from_rank]`: offset in packed buffer -/
  layoutOff : Nat → Nat → Nat
  /-- `src_info` at `(ℓ, from_rank, packed_slot)` -/
  srcInfo : Nat → Nat → Nat → Int
  /-- packed receive buffer `x` at `(ℓ, from_rank, packed_slot, elem)`,
  bfloat16 read as FP32 -/
  payload : Nat → Nat → Nat → Nat → ℚ

namespace CombineParams

def numLocalExperts (q : CombineParams) : Nat :=
  q.numExperts / q.numRanks

end CombineParams

/-- The guarded load of the packed buffer: the source computes the flat
offset of the element and yields zero when it reaches the buffer size
(`buffer_offset >= max_buffer_size ? make_int4(0,0,0,0) : ld…`). -/
def loadPayload (q : CombineParams) (le fr ps h : Nat) : ℚ :=
  if le * q.numRanks * q.sMax * q.hidden + (fr * q.sMax + ps) * q.hidden + h
      < q.numLocalExperts * q.numRanks * q.sMax * q.hidden
  then q.payload le fr ps h else 0

/-- The slot scan of the receive-reduce loop for `(t, ℓ, from_rank)`:
iterate `slot ∈ [0, layoutNum)`, `packed_slot = layoutOff + slot`, skip
(`continue`) slots at or beyond capacity, skip slots whose `src_info`
differs from `t`, and stop (`break`) at the first match. -/
def slotScan (q : CombineParams) (t le fr : Nat) : Option Nat :=
  ((List.range (q.layoutNum le fr)).map (fun s => q.layoutOff le fr + s)).find?
    (fun ps => decide (ps < q.sMax) && (q.srcInfo le fr ps == (t : Int)))

/-- Contribution of top-k entry `i` of token `t` to the accumulated FP32
value of element `h`, as the receive-reduce loop computes it: padding
entries contribute nothing, experts owned by other ranks are skipped
(`src_rank_local == rank` test), and for each `from_rank` the first
matching slot's payload is accumulated weighted by `w_{t,i}`. -/
def entryContrib (q : CombineParams) (t i h : Nat) : ℚ :=
  if q.topkIdx t i < 0 then 0
  else if (q.topkIdx t i).toNat / q.numLocalExperts = q.rank then
    ((List.range q.numRanks).map (fun fr =>
      match slotScan q t ((q.topkIdx t i).toNat % q.numLocalExperts) fr with
      | some ps =>
          loadPayload q ((q.topkIdx t i).toNat % q.numLocalExperts) fr ps h *
            q.topkWeights t i
      | none => 0)).sum
  else 0

/-- The local FP32 partial for output token `t`, element `h`
(`combined_values` after the top-k loop). -/
def localPartial (q : CombineParams) (t h : Nat) : ℚ :=
  ((List.range q.numTopk).map (fun i => entryContrib q t i h)).sum

/-- Modelled from the spec words of the claim: the slots of pair
`(ℓ, from_rank)` whose `src_info` entry equals `t`. -/
def specMatchingSlots (q : CombineParams) (t le fr : Nat) : List Nat :=
  ((List.range (q.layoutNum le fr)).map (fun s => q.layoutOff le fr + s)).filter
    (fun ps => q.srcInfo le fr ps == (t : Int))

/-- Modelled from the spec words of the claim: "the sum over non-padding
top-k entries `k` of `w_{t,k}` times the payload stored in the received
slot whose `src_info` entry equals `t`, restricted to experts whose
owning rank equals the current rank". -/
def specCombineLocal (q : CombineParams) (t h : Nat) : ℚ :=
  ((List.range q.numTopk).map (fun i =>
    if 0 ≤ q.topkIdx t i ∧ (q.topkIdx t i).toNat / q.numLocalExperts = q.rank then
      q.topkWeights t i *
        ((List.range q.numRanks).map (fun fr =>
          ((specMatchingSlots q t ((q.topkIdx t i).toNat % q.numLocalExperts) fr).map
            (fun ps =>
              q.payload ((q.topkIdx t i).toNat % q.numLocalExperts) fr ps h)).sum)).sum
    else 0)).sum

/-- Helper: the strict product bound used by the packed-buffer address
check. -/
theorem mul_add_lt_of_lt (a b c d : Nat) (hab : a < b) (hcd : c < d) :
    a * d + c < b * d := by
  have h1 : a * d + c < (a + 1) * d := by
    rw [Nat.succ_mul]; omega
  have h2 : (a + 1) * d ≤ b * d := Nat.mul_le_mul_right d hab
  omega

/-- Helper: a first-match scan over a list with at most one matching
element produces the same value as summing over all matches. -/
theorem find_matches_filter_sum (l : List Nat) (pred : Nat → Bool) (f : Nat → ℚ)
    (huniq : (l.filter pred).length ≤ 1) :
    (match l.find? pred with
     | some a => f a
     | none => 0) = ((l.filter pred).map f).sum := by
  induction l with
  | nil => simp
  | cons a l ih =>
      by_cases ha : pred a = true
      · rw [List.find?_cons_of_pos _ ha, List.filter_cons_of_pos ha]
        rw [List.filter_cons_of_pos ha] at huniq
        have hnil : l.filter pred = [] := by
          rw [← List.length_eq_zero]
          simp only [List.length_cons] at huniq
          omega
        rw [hnil]
        simp
      · have ha' : pred a = false := by simp [ha]
        rw [List.find?_cons_of_neg _ (by simp [ha']), List.filter_cons_of_neg (by simp [ha'])]
        rw [List.filter_cons_of_neg (by simp [ha'])] at huniq
        exact ih huniq

/-- Helper: `find?` only depends on the predicate's values on the list. -/
theorem find_congr_list (l : List Nat) (p q : Nat → Bool)
    (h : ∀ a ∈ l, p a = q a) : l.find? p = l.find? q := by
  induction l with
  | nil => rfl
  | cons a l ih =>
      by_cases hp : p a = true
      · rw [List.find?_cons_of_pos _ hp,
            List.find?_cons_of_pos _ (by rw [← h a (by simp)]; exact hp)]
      · have hp' : p a = false := by simp [hp]
        rw [List.find?_cons_of_neg _ (by simp [hp']),
            List.find?_cons_of_neg _ (by rw [← h a (by simp)]; simp [hp'])]
        exact ih (fun a ha => h a (by simp [ha]))

/-- Key step for C5, for one `(entry, from_rank)` pair: the loop's
first-match term (with its capacity guard and bounds-checked load)
equals the weight times the total payload of the matching slots, given
that the layout range respects capacity and at most one slot matches. -/
theorem fr_term_eq (q : CombineParams) (t le fr h : Nat) (w : ℚ)
    (hle : le < q.numLocalExperts) (hfr : fr < q.numRanks) (hh : h < q.hidden)
    (hlay : q.layoutOff le fr + q.layoutNum le fr ≤ q.sMax)
    (huniq : (specMatchingSlots q t le fr).length ≤ 1) :
    (match slotScan q t le fr with
     | some ps => loadPayload q le fr ps h * w
     | none => 0) =
    w * ((specMatchingSlots q t le fr).map (fun ps => q.payload le fr ps h)).sum := by
  have hmem : ∀ ps ∈ (List.range (q.layoutNum le fr)).map
      (fun s => q.layoutOff le fr + s), ps < q.sMax := by
    intro ps hps
    simp only [List.mem_map, List.mem_range] at hps
    obtain ⟨s, hs, rfl⟩ := hps
    omega
  have hcongr : slotScan q t le fr
      = ((List.range (q.layoutNum le fr)).map (fun s => q.layoutOff le fr + s)).find?
          (fun ps => q.srcInfo le fr ps == (t : Int)) := by
    unfold slotScan
    apply find_congr_list
    intro a ha
    have := hmem a ha
    simp [this]
  rw [hcongr,
    find_matches_filter_sum _ _ (fun ps => loadPayload q le fr ps h * w) huniq]
  have hload : ∀ ps ∈ specMatchingSlots q t le fr,
      loadPayload q le fr ps h * w = w * q.payload le fr ps h := by
    intro ps hps
    have hpsmem : ps ∈ (List.range (q.layoutNum le fr)).map
        (fun s => q.layoutOff le fr + s) := List.mem_of_mem_filter hps
    have hps' : ps < q.sMax := hmem ps hpsmem
    have h1 : le * q.numRanks + fr < q.numLocalExperts * q.numRanks :=
      mul_add_lt_of_lt le q.numLocalExperts fr q.numRanks hle hfr
    have h2 : (le * q.numRanks + fr) * q.sMax + ps
        < q.numLocalExperts * q.numRanks * q.sMax :=
      mul_add_lt_of_lt _ _ _ _ h1 hps'
    have h3 : ((le * q.numRanks + fr) * q.sMax + ps) * q.hidden + h
        < q.numLocalExperts * q.numRanks * q.sMax * q.hidden :=
      mul_add_lt_of_lt _ _ _ _ h2 hh
    have hrewr : le * q.numRanks * q.sMax * q.hidden + (fr * q.sMax + ps) * q.hidden + h
        = ((le * q.numRanks + fr) * q.sMax + ps) * q.hidden + h := by ring
    unfold loadPayload
    rw [if_pos (by rw [hrewr]; exact h3)]
    ring
  unfold specMatchingSlots at hload ⊢
  rw [List.map_congr_left hload]
  exact List.sum_map_mul_left _ _ _

/-- C5: in combine's receive-and-reduce phase, the FP32 value accumulated
for output token `t` at each hidden element is the sum, over non-padding
top-k entries whose expert is owned by the current rank, of the top-k
weight times the payload stored in the received slot whose `src_info`
entry equals `t`; experts owned by other ranks contribute nothing to the
local partial. -/
theorem combine_receive_reduce_eq_spec (q : CombineParams) (t h : Nat)
    (hL : 0 < q.numLocalExperts) (hh : h < q.hidden)
    (hlay : ∀ le < q.numLocalExperts, ∀ fr < q.numRanks,
      q.layoutOff le fr + q.layoutNum le fr ≤ q.sMax)
    (huniq : ∀ le < q.numLocalExperts, ∀ fr < q.numRanks,
      (specMatchingSlots q t le fr).length ≤ 1) :
    localPartial q t h = specCombineLocal q t h := by
  unfold localPartial specCombineLocal
  refine congrArg List.sum (List.map_congr_left ?_)
  intro i _
  unfold entryContrib
  by_cases hneg : q.topkIdx t i < 0
  · rw [if_pos hneg, if_neg (by omega)]
  · rw [if_neg hneg]
    by_cases hown : (q.topkIdx t i).toNat / q.numLocalExperts = q.rank
    · rw [if_pos hown, if_pos ⟨by omega, hown⟩, ← List.sum_map_mul_left]
      refine congrArg List.sum (List.map_congr_left ?_)
      intro fr hfr
      exact fr_term_eq q t _ fr h (q.topkWeights t i)
        (Nat.mod_lt _ hL) (by simpa using hfr) hh
        (hlay _ (Nat.mod_lt _ hL) fr (by simpa using hfr))
        (huniq _ (Nat.mod_lt _ hL) fr (by simpa using hfr))
    · rw [if_neg hown, if_neg (by tauto)]

/-- Executable model of the FP32 → bfloat16 element conversion performed
when writing `combined_x`: round to 8 significant binary digits
(bfloat16's significand), modelled over `ℚ`.  The conversion is exact at
zero, which is what the zero-weight claim exercises. -/
def castBF16 (x : ℚ) : ℚ :=
  if x = 0 then 0
  else ((round (x / 2 ^ (Int.log 2 |x| - 7)) : ℤ) : ℚ) * 2 ^ (Int.log 2 |x| - 7)

/-- Non-Pure-EP write path of combine's receive phase: the local partial
is the full answer and is converted to bfloat16 directly. -/
def combinedOutMixed (q : CombineParams) (t h : Nat) : ℚ :=
  castBF16 (localPartial q t h)

/-- Pure-EP path: each rank stages its FP32 partial in the symmetric
`fp32_workspace` (a rank that skipped its receive phase zeroes its
workspace first), block 0 sum-reduces element-wise across all ranks via
`nvshmemx_float_sum_reduce_block`, and all blocks then convert the FP32
result to bfloat16. -/
def fp32Workspace (qs : Nat → CombineParams) (r t h : Nat) : ℚ :=
  localPartial (qs r) t h

def reducedFP32 (numRanks : Nat) (qs : Nat → CombineParams) (t h : Nat) : ℚ :=
  ((List.range numRanks).map (fun r => fp32Workspace qs r t h)).sum

def combinedOutPureEP (numRanks : Nat) (qs : Nat → CombineParams) (t h : Nat) : ℚ :=
  castBF16 (reducedFP32 numRanks qs t h)

theorem castBF16_zero : castBF16 0 = 0 := by
  simp [castBF16]

theorem localPartial_zero_weights (q : CombineParams)
    (hw : ∀ t i, q.topkWeights t i = 0) (t h : Nat) :
    localPartial q t h = 0 := by
  unfold localPartial
  apply List.sum_eq_zero
  intro x hx
  simp only [List.mem_map] at hx
  obtain ⟨i, _, rfl⟩ := hx
  unfold entryContrib
  split
  · rfl
  · split
    · apply List.sum_eq_zero
      intro y hy
      simp only [List.mem_map] at hy
      obtain ⟨fr, _, rfl⟩ := hy
      cases hscan : slotScan q t ((q.topkIdx t i).toNat % q.numLocalExperts) fr with
      | none => rfl
      | some ps => simp [hw t i]
    · rfl

/-- C6: if every top-k weight is `0.0`, the combine receive phase
produces a `combined_x` that is identically zero — in Pure EP mode
(where the output is the bfloat16 conversion of the cross-rank FP32
reduction of the per-rank partials) as well as in mixed mode (where the
local partial is converted directly). -/
theorem zero_weight_combine_zero (numRanks : Nat) (qs : Nat → CombineParams)
    (q : CombineParams)
    (hqs : ∀ r < numRanks, ∀ t i, (qs r).topkWeights t i = 0)
    (hq : ∀ t i, q.topkWeights t i = 0) :
    (∀ t h, combinedOutPureEP numRanks qs t h = 0) ∧
    (∀ t h, combinedOutMixed q t h = 0) := by
  constructor
  · intro t h
    unfold combinedOutPureEP
    have hred : reducedFP32 numRanks qs t h = 0 := by
      unfold reducedFP32
      apply List.sum_eq_zero
      intro x hx
      simp only [List.mem_map, List.mem_range] at hx
      obtain ⟨r, hr, rfl⟩ := hx
      exact localPartial_zero_weights (qs r) (hqs r hr) t h
    rw [hred, castBF16_zero]
  · intro t h
    unfold combinedOutMixed
    rw [localPartial_zero_weights q hq t h, castBF16_zero]

/-- Concrete combine system for witnesses: `R = 2`, `E = 2` (`L = 1`),
rank 0, `S_max = 2`, two hidden elements, `K = 1`; token 0 routes to
expert 0 with weight `1/2`; the slot `(ℓ=0, from_rank=0, slot 0)` holds
token 0's payload `3`. -/
def exampleCombine : CombineParams := {
  numRanks := 2, numExperts := 2, rank := 0, sMax := 2, hidden := 2,
  numTopk := 1, numCombinedTokens := 1,
  topkIdx := fun _ _ => 0,
  topkWeights := fun _ _ => (1 : ℚ) / 2,
  layoutNum := fun _ _ => 1,
  layoutOff := fun _ fr => fr,
  srcInfo := fun _ fr ps => if fr = 0 && ps = 0 then 0 else 7,
  payload := fun _ _ _ _ => 3 }

theorem combine_receive_reduce_eq_spec_witness :
    localPartial exampleCombine 0 0 = specCombineLocal exampleCombine 0 0 :=
  combine_receive_reduce_eq_spec exampleCombine 0 0 (by decide) (by decide)
    (by decide) (by decide)

/-- Zero-weight variant of the combine system for the C6 witness. -/
def exampleCombineZeroW : CombineParams :=
  { exampleCombine with topkWeights := fun _ _ => 0 }

theorem zero_weight_combine_zero_witness :
    combinedOutPureEP 2 (fun _ => exampleCombineZeroW) 0 1 = 0 ∧
    combinedOutMixed exampleCombineZeroW 0 1 = 0 :=
  have h := zero_weight_combine_zero 2 (fun _ => exampleCombineZeroW)
    exampleCombineZeroW (fun _ _ _ _ => rfl) (fun _ _ => rfl)
  ⟨h.1 0 1, h.2 0 1⟩

/-! ## Combine: the cached `num_topk` corruption guard -/

/-- Outcome of the post-grid-sync control point in combine. -/
inductive CombineControl where
  | proceed (safeNumTopk : Int)
  | earlyReturn
deriving DecidableEq

/-- The corruption guard re-validating the cached `safe_num_topk` after
the grid sync in combine: `is_corrupted = (safe_num_topk <= 0 ||
safe_num_topk > 32)`; a corrupted value is logged and replaced by the
minimum valid value `1`, and in either case the kernel proceeds (it must
still reach the later grid-wide synchronisation points).  Returns the
control outcome and whether the violation was logged. -/
def revalidateNumTopk (n : Int) : CombineControl × Bool :=
  if n ≤ 0 ∨ 32 < n then (CombineControl.proceed 1, true)
  else (CombineControl.proceed n, false)

/-- C8: combine re-validates the cached `num_topk` after the grid sync:
an out-of-range value is forced to the safe minimum `1` and logged, and
the kernel continues (never an early return) so it reaches the
subsequent grid-wide synchronisation points; an in-range value is kept
and nothing is logged. -/
theorem num_topk_revalidation (n : Int) :
    (revalidateNumTopk n).1 ≠ CombineControl.earlyReturn ∧
    ((revalidateNumTopk n).2 = true ↔ (n ≤ 0 ∨ 32 < n)) ∧
    ((n ≤ 0 ∨ 32 < n) → (revalidateNumTopk n).1 = CombineControl.proceed 1) ∧
    (0 < n → n ≤ 32 → (revalidateNumTopk n).1 = CombineControl.proceed n) := by
  by_cases hc : n ≤ 0 ∨ 32 < n
  · simp only [revalidateNumTopk, if_pos hc]
    refine ⟨?_, ?_, ?_, ?_⟩
    · simp
    · simp [hc]
    · intro _; trivial
    · intro h1 h2; exact absurd hc (by omega)
  · simp only [revalidateNumTopk, if_neg hc]
    refine ⟨?_, ?_, ?_, ?_⟩
    · simp
    · simp [hc]
    · intro h; exact absurd h hc
    · intro _ _; trivial

theorem num_topk_revalidation_witness :
    (revalidateNumTopk 40).1 = CombineControl.proceed 1 ∧
    (revalidateNumTopk 40).2 = true ∧
    (revalidateNumTopk 5).1 = CombineControl.proceed 5 :=
  ⟨(num_topk_revalidation 40).2.2.1 (by omega),
   (num_topk_revalidation 40).2.1.mpr (by omega),
   (num_topk_revalidation 5).2.2.2 (by omega) (by omega)⟩

/-! ## ExpertSyncInfo byte layout

From the struct declaration at the top of internode_ll.cu:
`int expected_tokens_per_rank[8]; int received_tokens_per_rank[8];
int total_expected_tokens; int total_received_tokens;
int completed_ranks; int expert_processing_complete;
void* combined_x_ptr; int padding[1];`
with 4-byte `int`, an 8-byte pointer, and the struct padded to the
pointer's 8-byte alignment. -/

def intBytes : Nat := 4
def ptrBytes : Nat := 8
/-- Declared length of `expected_tokens_per_rank` (fixed in the source,
independent of the number of ranks). -/
def expectedPerRankLen : Nat := 8
/-- Declared length of `received_tokens_per_rank`. -/
def receivedPerRankLen : Nat := 8
def expectedFieldOff : Nat := 0
def receivedFieldOff : Nat := expectedFieldOff + intBytes * expectedPerRankLen
def totalExpectedOff : Nat := receivedFieldOff + intBytes * receivedPerRankLen
def totalReceivedOff : Nat := totalExpectedOff + intBytes
def completedRanksOff : Nat := totalReceivedOff + intBytes
def processingCompleteOff : Nat := completedRanksOff + intBytes
def combinedXPtrOff : Nat := processingCompleteOff + intBytes
def paddingOff : Nat := combinedXPtrOff + ptrBytes
/-- `sizeof(ExpertSyncInfo)`: 92 bytes of members padded to 96. -/
def expertSyncInfoSize : Nat := 96

/-- Byte offset of `expected_tokens_per_rank[r]` — the cell dispatch's
`atomicAdd(&expert_sync_info_buffer[e].expected_tokens_per_rank[rank], 1)`
addresses. -/
def expectedEntryOff (r : Nat) : Nat := expectedFieldOff + intBytes * r

/-- Byte offset of `received_tokens_per_rank[r]` — the cell combine's
`atomicAdd(&expert_sync_info_buffer[e].received_tokens_per_rank[rank], …)`
addresses. -/
def receivedEntryOff (r : Nat) : Nat := receivedFieldOff + intBytes * r

/-- An `int` at byte offset `off` lies inside one `ExpertSyncInfo`. -/
def intInsideStruct (off : Nat) : Prop := off + intBytes ≤ expertSyncInfoSize

/-- C7 as stated: the struct holds one `expected_tokens_per_rank` entry
and one `received_tokens_per_rank` entry per rank (arrays indexed
`0..R-1`), and for every rank below `R` the two atomic increments
address elements inside that expert's `ExpertSyncInfo`. -/
def perRankEntriesClaim (R : Nat) : Prop :=
  expectedPerRankLen = R ∧ receivedPerRankLen = R ∧
  ∀ r < R, intInsideStruct (expectedEntryOff r) ∧
    intInsideStruct (receivedEntryOff r)

/-- C7 counterexample: at `R = 17` the claim fails — the arrays are
declared with 8 entries, not one per rank, and combine's increment for
source rank 16 (`received_tokens_per_rank[16]`, byte offset 96) falls
outside the 96-byte struct (into the next expert's entry). -/
theorem per_rank_entries_counterexample :
    ¬ perRankEntriesClaim 17 ∧ ¬ intInsideStruct (receivedEntryOff 16) := by
  constructor
  · intro hclaim
    have h1 := hclaim.1
    unfold expectedPerRankLen at h1
    omega
  · unfold intInsideStruct receivedEntryOff receivedFieldOff expectedFieldOff
      intBytes expectedPerRankLen expertSyncInfoSize
    omega

/-- C7 amended: the per-rank arrays are fixed at 8 entries regardless of
`R`; whenever `R ≤ 8`, for every rank `r < R` dispatch's increment of
`expected_tokens_per_rank[r]` and combine's increment of
`received_tokens_per_rank[r]` address elements inside the declared
arrays, and hence inside that expert's `ExpertSyncInfo`. -/
theorem per_rank_entries_amended (R : Nat) (hR : R ≤ 8) :
    ∀ r < R, r < expectedPerRankLen ∧ r < receivedPerRankLen ∧
      intInsideStruct (expectedEntryOff r) ∧
      intInsideStruct (receivedEntryOff r) := by
  intro r hr
  refine ⟨?_, ?_, ?_, ?_⟩ <;>
    simp only [expectedPerRankLen, receivedPerRankLen, intInsideStruct,
      expectedEntryOff, receivedEntryOff, expectedFieldOff, receivedFieldOff,
      intBytes, expertSyncInfoSize] <;>
    omega

theorem per_rank_entries_amended_witness :
    7 < expectedPerRankLen ∧ 7 < receivedPerRankLen ∧
    intInsideStruct (expectedEntryOff 7) ∧
    intInsideStruct (receivedEntryOff 7) :=
  per_rank_entries_amended 8 (by omega) 7 (by omega)

/-! ## Dispatch receive phase as a state transformer (frame property)

The receive phase guards its whole body with
`should_process = (num_recv_tokens_per_rank[rank] > 0)`; a block whose
pair index is within `LÂ·R` and whose rank should process polls the count
cell and copies messages into the packed output buffers.  The model
returns the updated buffers together with the list of polled
`rdma_recv_count` indices. -/

structure DispatchRecvBuffers where
  packedRecvX : Nat → Int
  packedRecvXScales : Nat → Int
  packedRecvSrcInfo : Nat → Int
  packedRecvLayoutRange : Nat → Int
  packedRecvCount : Nat → Int
  cumulativeStats : Nat → Int

structure DispatchRecvInput where
  numRanks : Nat
  numExperts : Nat
  numLocalExperts : Nat
  sMax : Nat
  rank : Nat
  useFP8 : Bool
  /-- `num_recv_tokens_per_rank` array -/
  numRecvTokensPerRank : Nat → Int
  /-- the count cell contents the spin loop observes -/
  rdmaRecvCount : Nat → Int
  /-- message headers in the RDMA receive buffer: `(ℓ, s, i)` -/
  rdmaSrcIdx : Nat → Nat → Nat → Int
  /-- message payloads in the RDMA receive buffer (abstracted per slot) -/
  rdmaData : Nat → Nat → Nat → Int
  /-- FP8 scales in the RDMA receive buffer -/
  rdmaScales : Nat → Nat → Nat → Int

/-- `pack2<int, int64_t>(num_recv_tokens, recv_token_begin_idx)`. -/
def pack2 (num lo : Int) : Int := num * 2 ^ 32 + lo

/-- The receive body of one block, responsible for pair
`(ℓ = b / R, s = b % R)`: poll the count cell, decode, reserve
`[begin, begin + n)` in `packed_recv_count`, publish the layout range,
bump the cumulative stats, and copy the `n` messages' headers and
bodies (and scales in FP8 mode). -/
def recvOnePair (inp : DispatchRecvInput) (st : DispatchRecvBuffers)
    (pairIdx : Nat) : DispatchRecvBuffers × List Nat :=
  let le := pairIdx / inp.numRanks
  let s := pairIdx % inp.numRanks
  let idx := le * inp.numRanks + s
  let v := inp.rdmaRecvCount idx
  if v = 0 then (st, [idx])
  else
    let n := decodeCount v
    let b := st.packedRecvCount idx
    let base := le * inp.numRanks * inp.sMax + s * inp.sMax
    let st1 : DispatchRecvBuffers :=
      { st with
        packedRecvCount := Function.update st.packedRecvCount idx (b + n)
        packedRecvLayoutRange :=
          Function.update st.packedRecvLayoutRange idx (pack2 n b)
        cumulativeStats :=
          Function.update st.cumulativeStats le (st.cumulativeStats le + n) }
    let st2 := (List.range n.toNat).foldl (fun acc i =>
      { acc with
        packedRecvSrcInfo := Function.update acc.packedRecvSrcInfo
          (base + b.toNat + i) (inp.rdmaSrcIdx le s i)
        packedRecvX := Function.update acc.packedRecvX
          (base + b.toNat + i) (inp.rdmaData le s i)
        packedRecvXScales :=
          if inp.useFP8 then
            Function.update acc.packedRecvXScales
              (base + b.toNat + i) (inp.rdmaScales le s i)
          else acc.packedRecvXScales }) st1
    (st2, [idx])

/-- The whole receive phase: nothing at all happens unless
`num_recv_tokens_per_rank[rank] > 0`; otherwise each block with a pair
index below `num_local_experts · num_ranks` runs the receive body. -/
def dispatchRecvPhase (inp : DispatchRecvInput) (st : DispatchRecvBuffers) :
    DispatchRecvBuffers × List Nat :=
  if 0 < inp.numRecvTokensPerRank inp.rank then
    (List.range inp.numExperts).foldl (fun acc blk =>
      if blk < inp.numLocalExperts * inp.numRanks then
        ((recvOnePair inp acc.1 blk).1, acc.2 ++ (recvOnePair inp acc.1 blk).2)
      else acc) (st, [])
  else (st, [])

/-- C10: if `num_recv_tokens_per_rank[rank] = 0`, the dispatch receive
phase is a no-op: it polls no `rdma_recv_count` cell and leaves
`packed_recv_x`, `packed_recv_x_scales`, `packed_recv_src_info`,
`packed_recv_layout_range`, `packed_recv_count` and
`cumulative_local_expert_recv_stats` unchanged, because the whole
receive body is guarded by `should_process`. -/
theorem recv_phase_noop_when_zero (inp : DispatchRecvInput)
    (st : DispatchRecvBuffers)
    (hzero : inp.numRecvTokensPerRank inp.rank = 0) :
    dispatchRecvPhase inp st = (st, []) := by
  unfold dispatchRecvPhase
  rw [hzero]
  simp

/-- Concrete input for the C10 witness: rank 0 is told to receive zero
tokens while the count cells already hold posted counts. -/
def exampleRecvInput : DispatchRecvInput := {
  numRanks := 2, numExperts := 4, numLocalExperts := 2, sMax := 2,
  rank := 0, useFP8 := false,
  numRecvTokensPerRank := fun _ => 0,
  rdmaRecvCount := fun _ => -1,
  rdmaSrcIdx := fun _ _ _ => 0,
  rdmaData := fun _ _ _ => 9,
  rdmaScales := fun _ _ _ => 1 }

def exampleRecvBuffers : DispatchRecvBuffers := {
  packedRecvX := fun _ => 11,
  packedRecvXScales := fun _ => 12,
  packedRecvSrcInfo := fun _ => 13,
  packedRecvLayoutRange := fun _ => 14,
  packedRecvCount := fun _ => 0,
  cumulativeStats := fun _ => 15 }

theorem recv_phase_noop_when_zero_witness :
    dispatchRecvPhase exampleRecvInput exampleRecvBuffers
      = (exampleRecvBuffers, []) :=
  recv_phase_noop_when_zero exampleRecvInput exampleRecvBuffers rfl

end DeepEP
